import Mathlib

/-
Verification of the better-enums reflective enum generator (src/enum.h).

The generator turns an ordered list of declarations into two parallel tables:
a value table (resolved integral values) and a raw-name table (stringized
declaration text, possibly containing a trailing "= expression").  We embed
the tables as Lean lists: a C string is a `List Char` holding the characters
before its null terminator (the embedded strings never contain a null byte),
and the underlying integral type is embedded as `Int`.
-/

/-- The characters of the C string literal `_ENUM_NAME_ENDERS`, `"= \t\n"`
(enum.h line 233).  The implicit null terminator of the C literal is handled
by the base case of `endsNameFrom`. -/
def nameEnders : List Char := ['=', ' ', '\t', '\n']

/-- Embedding of `_endsName(c, index)` (enum.h lines 245-258): the recursion
over the index into `_ENUM_NAME_ENDERS` becomes recursion over the list tail.
Reading the array at the terminator position (the `[]` case) compares `c`
against the null terminator, exactly as the C recursion does. -/
def endsNameFrom (c : Char) : List Char → Bool
  | [] => c == Char.ofNat 0
  | e :: rest => if c == e then true else endsNameFrom c rest

/-- `_endsName(c)` with the default starting index 0. -/
def endsName (c : Char) : Bool := endsNameFrom c nameEnders

/-- Embedding of `_toLowercaseAscii` (enum.h lines 260-263). -/
def toLowercaseAscii (c : Char) : Char :=
  if 0x41 ≤ c.toNat ∧ c.toNat ≤ 0x5A then Char.ofNat (c.toNat + 0x20) else c

/-- Embedding of `_namesMatch(stringizedName, referenceName, index)`
(enum.h lines 277-295).  The lockstep index walk becomes lockstep list
recursion; when the stringized name is exhausted the C code reads its null
terminator, for which `_endsName` returns true, so that case reduces to
checking that the reference is exhausted too. -/
def namesMatch : List Char → List Char → Bool
  | [], r => r.isEmpty
  | c :: s, r =>
    if endsName c then r.isEmpty
    else
      match r with
      | [] => false
      | d :: r' => if c ≠ d then false else namesMatch s r'

/-- Embedding of `_namesMatchNocase` (enum.h lines 297-307). -/
def namesMatchNocase : List Char → List Char → Bool
  | [], r => r.isEmpty
  | c :: s, r =>
    if endsName c then r.isEmpty
    else
      match r with
      | [] => false
      | d :: r' =>
        if toLowercaseAscii c ≠ toLowercaseAscii d then false
        else namesMatchNocase s r'

/-- The trimming performed per name by `_processNames` (enum.h lines 391-406):
`strpbrk(rawName, _ENUM_NAME_ENDERS)` locates the first ender character and
the copy keeps exactly the bytes before it (the whole string when there is
none).  On null-free character lists this is `takeWhile` of non-enders. -/
def trimName (s : List Char) : List Char := s.takeWhile (fun c => !endsName c)

/-- The processed-name table built by `_processNames` (enum.h lines 367-409):
one trimmed, null-terminated copy of each raw name, in declaration order. -/
def processNames (rawNames : List (List Char)) : List (List Char) :=
  rawNames.map trimName

/-- The byte count `bytesNeeded` computed by `_processNames`
(enum.h lines 377-379): the sum of `strlen(rawNames[index]) + 1` over the raw
(untrimmed) names. -/
def processNamesBytesNeeded (rawNames : List (List Char)) : Nat :=
  rawNames.foldl (fun acc s => acc + (s.length + 1)) 0

/-- Result of one of the lookup loops: a table index, the `_ENUM_NOT_FOUND`
sentinel, or a thrown exception. -/
inductive LookupResult where
  | found (index : Nat)
  | notFound
  | raised
  deriving DecidableEq

/-- Shifts a found index by one; used to re-express the C loops, which carry
an absolute index while scanning a fixed array, as structural recursion on
the list of remaining entries. -/
def LookupResult.shift : LookupResult → LookupResult
  | .found i => .found (i + 1)
  | r => r

/-- Embedding of `_Enum::_from_int_loop` (enum.h lines 551-563): linear scan
of the value table; on exhaustion, throw when `throwExc` else return the
`_ENUM_NOT_FOUND` sentinel. -/
def from_int_loop (values : List Int) (value : Int) (throwExc : Bool) :
    LookupResult :=
  match values with
  | [] => if throwExc then .raised else .notFound
  | x :: rest =>
    if x = value then .found 0
    else (from_int_loop rest value throwExc).shift

/-- Embedding of `_Enum::_from_string_loop` (enum.h lines 565-577). -/
def from_string_loop (rawNames : List (List Char)) (name : List Char)
    (throwExc : Bool) : LookupResult :=
  match rawNames with
  | [] => if throwExc then .raised else .notFound
  | rn :: rest =>
    if namesMatch rn name then .found 0
    else (from_string_loop rest name throwExc).shift

/-- Embedding of `_Enum::_from_string_nocase_loop` (enum.h lines 579-591). -/
def from_string_nocase_loop (rawNames : List (List Char)) (name : List Char)
    (throwExc : Bool) : LookupResult :=
  match rawNames with
  | [] => if throwExc then .raised else .notFound
  | rn :: rest =>
    if namesMatchNocase rn name then .found 0
    else (from_string_nocase_loop rest name throwExc).shift

/-- A generated enum type's static data: the parallel value and raw-name
tables built by `_ENUM_ARRAYS`.  `_size > 0` is enforced by the
static_assert at enum.h line 455, and the two arrays are generated from the
same `__VA_ARGS__` list, hence have the same length. -/
structure EnumData where
  values : List Int
  rawNames : List (List Char)
  size_pos : 0 < values.length
  len_eq : rawNames.length = values.length

/-- The exception kinds the spec distinguishes: `std::runtime_error` from the
integer lookup (InvalidInteger), `std::runtime_error` from the string lookups
(InvalidName), and `std::domain_error` from `to_string` (DomainError). -/
inductive EnumError where
  | invalidInteger
  | invalidName
  | domainError
  deriving DecidableEq

/-- An enum instance is its held `_value`; `to_int` (enum.h lines 469-472)
returns it unchanged. -/
def to_int (instVal : Int) : Int := instVal

/-- Embedding of `_Enum::_from_int` (enum.h lines 474-477):
`_value_array[_from_int_loop(value, true)]`, with the loop's throw
propagating as `EnumError.invalidInteger`. -/
def from_int (e : EnumData) (value : Int) : Except EnumError Int :=
  match from_int_loop e.values value true with
  | .found i => .ok (e.values.getD i 0)
  | _ => .error .invalidInteger

/-- Embedding of `_Enum::_from_int_unchecked` (enum.h lines 479-482): wraps
the integral value with no membership check. -/
def from_int_unchecked (value : Int) : Int := value

/-- Embedding of `_Enum::_from_string` (enum.h lines 496-499). -/
def from_string (e : EnumData) (name : List Char) : Except EnumError Int :=
  match from_string_loop e.rawNames name true with
  | .found i => .ok (e.values.getD i 0)
  | _ => .error .invalidName

/-- Embedding of `_Enum::_from_string_nocase` (enum.h lines 501-504). -/
def from_string_nocase (e : EnumData) (name : List Char) :
    Except EnumError Int :=
  match from_string_nocase_loop e.rawNames name true with
  | .found i => .ok (e.values.getD i 0)
  | _ => .error .invalidName

/-- Embedding of `_Enum::_is_valid(_Integral)` (enum.h lines 506-509):
`_from_int_loop(value, false) != _ENUM_NOT_FOUND`. -/
def is_valid_int (e : EnumData) (value : Int) : Bool :=
  from_int_loop e.values value false != LookupResult.notFound

/-- Embedding of `_Enum::_is_valid(const char*)` (enum.h lines 511-514). -/
def is_valid_string (e : EnumData) (name : List Char) : Bool :=
  from_string_loop e.rawNames name false != LookupResult.notFound

/-- Embedding of `_Enum::_is_valid_nocase` (enum.h lines 516-519). -/
def is_valid_nocase (e : EnumData) (name : List Char) : Bool :=
  from_string_nocase_loop e.rawNames name false != LookupResult.notFound

/-- The scan inside `_Enum::to_string` (enum.h lines 484-494): find the first
index whose value-table entry equals the held value and return the processed
name there; `none` models falling off the loop into the `std::domain_error`
throw. -/
def to_string_loop (values : List Int) (processedNames : List (List Char))
    (value : Int) : Option (List Char) :=
  match values, processedNames with
  | v :: vs, n :: ns =>
    if v = value then some n else to_string_loop vs ns value
  | _, _ => none

/-- Embedding of `_Enum::to_string` (enum.h lines 484-494): the lazily built
processed-name table is `processNames e.rawNames` (the laziness and caching
are pure memoization and do not change the returned strings). -/
def to_string (e : EnumData) (value : Int) : Except EnumError (List Char) :=
  match to_string_loop e.values (processNames e.rawNames) value with
  | some n => .ok n
  | none => .error .domainError

/-- Embedding of `_range::_findMinLoop` (enum.h lines 317-327): fold over the
remaining values with strict `<`. -/
def findMinLoop (values : List Int) (best : Int) : Int :=
  match values with
  | [] => best
  | x :: rest => if x < best then findMinLoop rest x else findMinLoop rest best

/-- Embedding of `_range::_findMin` (enum.h lines 329-334): start the fold at
index 1 with `values[0]` as the initial best.  The `[]` case is unreachable
on generated enums (`_size > 0`). -/
def findMin (values : List Int) : Int :=
  match values with
  | [] => 0
  | x :: rest => findMinLoop rest x

/-- Embedding of `_range::_findMaxLoop` (enum.h lines 336-346). -/
def findMaxLoop (values : List Int) (best : Int) : Int :=
  match values with
  | [] => best
  | x :: rest => if x > best then findMaxLoop rest x else findMaxLoop rest best

/-- Embedding of `_range::_findMax` (enum.h lines 348-352). -/
def findMax (values : List Int) : Int :=
  match values with
  | [] => 0
  | x :: rest => findMaxLoop rest x

/-- Embedding of `_Enum::_span = _max - _min + 1` (enum.h line 464).  The
subtraction and increment happen in the definer-chosen underlying integral
type, whose native arithmetic wraps: for an unsigned underlying type of bit
width `w` (of int rank or wider, so integer promotion does not widen the
computation) the stored `size_t` value is the exact difference reduced
modulo `2 ^ w`.  Narrower underlying types are promoted to `int` and cannot
wrap, and a signed computation that overflows is ill-formed in a constexpr
initializer, so no generated program evaluates it. -/
def span (w : Nat) (values : List Int) : Int :=
  (findMax values - findMin values + 1) % (2 ^ w)

/-- The common shape of the three lookup loops, abstracted over the match
predicate; used only to share the proofs of their characterizations. -/
def scanLoop {α : Type} (p : α → Bool) : List α → Bool → LookupResult
  | [], te => if te then .raised else .notFound
  | x :: rest, te => if p x then .found 0 else (scanLoop p rest te).shift

/-- The spec's concrete scenario `RED, GREEN, BLUE` with no explicit values:
resolved values 0, 1, 2 and raw stringized names without assignment text. -/
def sampleRGB : EnumData where
  values := [0, 1, 2]
  rawNames := [['R', 'E', 'D'], ['G', 'R', 'E', 'E', 'N'],
    ['B', 'L', 'U', 'E']]
  size_pos := by decide
  len_eq := by decide

/-- The spec's concrete scenario `X, Y = X`: Y explicitly aliases X's
resolved value 0, and Y's raw stringized name still carries the assignment
text. -/
def sampleAlias : EnumData where
  values := [0, 0]
  rawNames := [['X'], ['Y', ' ', '=', ' ', 'X']]
  size_pos := by decide
  len_eq := by decide

/-- The spec's concrete scenario `A = 10, B, C = 5`: resolved values
10, 11, 5 (B auto-increments from A). -/
def sampleABC : EnumData where
  values := [10, 11, 5]
  rawNames := [['A', ' ', '=', ' ', '1', '0'], ['B'],
    ['C', ' ', '=', ' ', '5']]
  size_pos := by decide
  len_eq := by decide

theorem scanLoop_eq_findIdx? {α : Type} (p : α → Bool) (items : List α)
    (te : Bool) :
    scanLoop p items te =
      match items.findIdx? p with
      | some i => .found i
      | none => if te then .raised else .notFound := by
  induction items with
  | nil => cases te <;> rfl
  | cons x rest ih =>
    by_cases h : p x
    · simp [scanLoop, h]
    · have h' : p x = false := by simpa using h
      simp only [scanLoop, h', Bool.false_eq_true, if_false, ih,
        List.findIdx?_cons, List.findIdx?_succ]
      cases hfi : rest.findIdx? p <;> cases te <;>
        simp [LookupResult.shift, hfi]

theorem scanLoop_found_iff {α : Type} (p : α → Bool) (d : α) (items : List α)
    (te : Bool) (i : Nat) :
    scanLoop p items te = .found i ↔
      i < items.length ∧ p (items.getD i d) = true ∧
        ∀ k < i, p (items.getD k d) = false := by
  rw [scanLoop_eq_findIdx?]
  cases hfi : items.findIdx? p with
  | none =>
    rw [List.findIdx?_eq_none_iff] at hfi
    constructor
    · intro h
      cases te <;> simp at h
    · rintro ⟨hlen, hp, -⟩
      rw [List.getD_eq_getElem items d hlen] at hp
      exact absurd (hfi _ (List.getElem_mem hlen)) (by simp [hp])
  | some j =>
    rw [List.findIdx?_eq_some_iff_getElem] at hfi
    obtain ⟨hj, hpj, hall⟩ := hfi
    constructor
    · intro h
      have hij : j = i := by simpa using h
      subst hij
      refine ⟨hj, ?_, ?_⟩
      · rw [List.getD_eq_getElem items d hj]
        exact hpj
      · intro k hk
        rw [List.getD_eq_getElem items d (Nat.lt_trans hk hj)]
        simpa using hall k hk
    · rintro ⟨hi, hpi, halli⟩
      have hji : j = i := by
        rcases Nat.lt_trichotomy j i with h | h | h
        · have := halli j h
          rw [List.getD_eq_getElem items d hj] at this
          simp [hpj] at this
        · exact h
        · have := hall i h
          rw [List.getD_eq_getElem items d hi] at hpi
          simp [hpi] at this
      subst hji
      rfl

theorem scanLoop_miss_iff {α : Type} (p : α → Bool) (items : List α)
    (te : Bool) :
    scanLoop p items te = (if te then .raised else .notFound) ↔
      ∀ x ∈ items, p x = false := by
  rw [scanLoop_eq_findIdx?]
  cases hfi : items.findIdx? p with
  | none =>
    rw [List.findIdx?_eq_none_iff] at hfi
    simpa using hfi
  | some j =>
    rw [List.findIdx?_eq_some_iff_getElem] at hfi
    obtain ⟨hj, hpj, -⟩ := hfi
    constructor
    · intro h
      cases te <;> simp at h
    · intro h
      exact absurd (h _ (List.getElem_mem hj)) (by simp [hpj])

theorem scanLoop_cases {α : Type} (p : α → Bool) (items : List α) (te : Bool) :
    (∃ i, scanLoop p items te = .found i) ∨
      scanLoop p items te = (if te then .raised else .notFound) := by
  rw [scanLoop_eq_findIdx?]
  cases hfi : items.findIdx? p with
  | none => right; rfl
  | some j => left; exact ⟨j, rfl⟩

theorem scanLoop_false_ne_raised {α : Type} (p : α → Bool) (items : List α) :
    scanLoop p items false ≠ .raised := by
  rcases scanLoop_cases p items false with ⟨i, hi⟩ | hmiss <;> simp_all

theorem from_int_loop_eq_scanLoop (values : List Int) (v : Int) (te : Bool) :
    from_int_loop values v te = scanLoop (fun x => decide (x = v)) values te := by
  induction values with
  | nil => rfl
  | cons x rest ih => by_cases h : x = v <;> simp [from_int_loop, scanLoop, h, ih]

theorem from_string_loop_eq_scanLoop (rawNames : List (List Char))
    (name : List Char) (te : Bool) :
    from_string_loop rawNames name te =
      scanLoop (fun rn => namesMatch rn name) rawNames te := by
  induction rawNames with
  | nil => rfl
  | cons rn rest ih =>
    by_cases h : namesMatch rn name <;>
      simp [from_string_loop, scanLoop, h, ih]

theorem from_string_nocase_loop_eq_scanLoop (rawNames : List (List Char))
    (name : List Char) (te : Bool) :
    from_string_nocase_loop rawNames name te =
      scanLoop (fun rn => namesMatchNocase rn name) rawNames te := by
  induction rawNames with
  | nil => rfl
  | cons rn rest ih =>
    by_cases h : namesMatchNocase rn name <;>
      simp [from_string_nocase_loop, scanLoop, h, ih]

theorem trimName_cons (c : Char) (s : List Char) :
    trimName (c :: s) = if endsName c then [] else c :: trimName s := by
  by_cases h : endsName c <;> simp [trimName, List.takeWhile_cons, h]

theorem namesMatch_eq_true_iff (s r : List Char) :
    namesMatch s r = true ↔ r = trimName s := by
  induction s generalizing r with
  | nil => simp [namesMatch, trimName, List.isEmpty_iff]
  | cons c s ih =>
    by_cases hc : endsName c
    · simp [namesMatch, hc, trimName_cons, List.isEmpty_iff]
    · cases r with
      | nil => simp [namesMatch, hc, trimName_cons]
      | cons d r' =>
        by_cases hcd : c = d
        · subst hcd
          simp [namesMatch, hc, trimName_cons, ih]
        · simp [namesMatch, hc, trimName_cons, hcd, Ne.symm hcd]

theorem namesMatchNocase_eq_true_iff (s r : List Char) :
    namesMatchNocase s r = true ↔
      r.map toLowercaseAscii = (trimName s).map toLowercaseAscii := by
  induction s generalizing r with
  | nil =>
    simp [namesMatchNocase, trimName, List.isEmpty_iff, List.map_eq_nil_iff]
  | cons c s ih =>
    by_cases hc : endsName c
    · simp [namesMatchNocase, hc, trimName_cons, List.isEmpty_iff,
        List.map_eq_nil_iff]
    · cases r with
      | nil => simp [namesMatchNocase, hc, trimName_cons]
      | cons d r' =>
        by_cases hcd : toLowercaseAscii c = toLowercaseAscii d
        · simp [namesMatchNocase, hc, trimName_cons, hcd, ih]
        · simp [namesMatchNocase, hc, trimName_cons, hcd, Ne.symm hcd]

theorem mem_of_getD {α : Type} {l : List α} {i : Nat} {d v : α}
    (h : i < l.length) (hv : l.getD i d = v) : v ∈ l := by
  subst hv
  rw [List.getD_eq_getElem l d h]
  exact List.getElem_mem h

theorem from_int_loop_found_iff (values : List Int) (v : Int) (te : Bool)
    (i : Nat) :
    from_int_loop values v te = .found i ↔
      i < values.length ∧ values.getD i 0 = v ∧
        ∀ k < i, values.getD k 0 ≠ v := by
  rw [from_int_loop_eq_scanLoop,
    scanLoop_found_iff (fun x => decide (x = v)) 0]
  simp

theorem from_int_loop_miss_iff (values : List Int) (v : Int) (te : Bool) :
    from_int_loop values v te = (if te then .raised else .notFound) ↔
      v ∉ values := by
  rw [from_int_loop_eq_scanLoop, scanLoop_miss_iff]
  constructor
  · intro h hv
    simpa using h v hv
  · intro h x hx
    simp only [decide_eq_false_iff_not]
    intro hxv
    exact h (hxv ▸ hx)

theorem from_int_loop_cases (values : List Int) (v : Int) (te : Bool) :
    (∃ i, from_int_loop values v te = .found i) ∨
      from_int_loop values v te = (if te then .raised else .notFound) := by
  rw [from_int_loop_eq_scanLoop]
  exact scanLoop_cases _ _ _

theorem from_string_loop_found_iff (rawNames : List (List Char))
    (name : List Char) (te : Bool) (i : Nat) :
    from_string_loop rawNames name te = .found i ↔
      i < rawNames.length ∧ namesMatch (rawNames.getD i []) name = true ∧
        ∀ k < i, namesMatch (rawNames.getD k []) name = false := by
  rw [from_string_loop_eq_scanLoop,
    scanLoop_found_iff (fun rn => namesMatch rn name) []]

theorem from_string_loop_miss_iff (rawNames : List (List Char))
    (name : List Char) (te : Bool) :
    from_string_loop rawNames name te = (if te then .raised else .notFound) ↔
      ∀ rn ∈ rawNames, namesMatch rn name = false := by
  rw [from_string_loop_eq_scanLoop, scanLoop_miss_iff]

theorem from_string_loop_cases (rawNames : List (List Char))
    (name : List Char) (te : Bool) :
    (∃ i, from_string_loop rawNames name te = .found i) ∨
      from_string_loop rawNames name te =
        (if te then .raised else .notFound) := by
  rw [from_string_loop_eq_scanLoop]
  exact scanLoop_cases _ _ _

theorem from_string_nocase_loop_found_iff (rawNames : List (List Char))
    (name : List Char) (te : Bool) (i : Nat) :
    from_string_nocase_loop rawNames name te = .found i ↔
      i < rawNames.length ∧
        namesMatchNocase (rawNames.getD i []) name = true ∧
        ∀ k < i, namesMatchNocase (rawNames.getD k []) name = false := by
  rw [from_string_nocase_loop_eq_scanLoop,
    scanLoop_found_iff (fun rn => namesMatchNocase rn name) []]

theorem from_string_nocase_loop_miss_iff (rawNames : List (List Char))
    (name : List Char) (te : Bool) :
    from_string_nocase_loop rawNames name te =
        (if te then .raised else .notFound) ↔
      ∀ rn ∈ rawNames, namesMatchNocase rn name = false := by
  rw [from_string_nocase_loop_eq_scanLoop, scanLoop_miss_iff]

theorem from_string_nocase_loop_cases (rawNames : List (List Char))
    (name : List Char) (te : Bool) :
    (∃ i, from_string_nocase_loop rawNames name te = .found i) ∨
      from_string_nocase_loop rawNames name te =
        (if te then .raised else .notFound) := by
  rw [from_string_nocase_loop_eq_scanLoop]
  exact scanLoop_cases _ _ _

theorem bne_notFound_iff (r : LookupResult) :
    (r != LookupResult.notFound) = true ↔ r ≠ LookupResult.notFound := by
  simp [bne_iff_ne]

theorem from_int_mem (e : EnumData) (v : Int) (hv : v ∈ e.values) :
    from_int e v = .ok v := by
  rcases from_int_loop_cases e.values v true with ⟨i, hi⟩ | hmiss
  · obtain ⟨hlen, hval, -⟩ := (from_int_loop_found_iff _ _ _ _).mp hi
    simp only [from_int, hi]
    rw [hval]
  · rw [from_int_loop_miss_iff] at hmiss
    exact absurd hv hmiss

theorem from_int_not_mem (e : EnumData) (v : Int) (hv : v ∉ e.values) :
    from_int e v = .error .invalidInteger := by
  have hmiss : from_int_loop e.values v true = .raised := by
    simpa using (from_int_loop_miss_iff e.values v true).mpr hv
  simp [from_int, hmiss]

theorem is_valid_int_eq_true_iff (e : EnumData) (v : Int) :
    is_valid_int e v = true ↔ v ∈ e.values := by
  unfold is_valid_int
  rw [bne_notFound_iff]
  rcases from_int_loop_cases e.values v false with ⟨i, hi⟩ | hmiss
  · obtain ⟨hlen, hval, -⟩ := (from_int_loop_found_iff _ _ _ _).mp hi
    simp only [hi]
    simpa using mem_of_getD hlen hval
  · have hnmem := (from_int_loop_miss_iff e.values v false).mp hmiss
    have hnf : from_int_loop e.values v false = .notFound := by
      simpa using hmiss
    simp [hnf, hnmem]

theorem is_valid_string_eq_true_iff (e : EnumData) (name : List Char) :
    is_valid_string e name = true ↔
      ∃ rn ∈ e.rawNames, namesMatch rn name = true := by
  unfold is_valid_string
  rw [bne_notFound_iff]
  constructor
  · intro h
    rcases from_string_loop_cases e.rawNames name false with ⟨i, hi⟩ | hmiss
    · obtain ⟨hlen, hmatch, -⟩ := (from_string_loop_found_iff _ _ _ _).mp hi
      exact ⟨_, mem_of_getD hlen rfl, hmatch⟩
    · exact absurd (by simpa using hmiss) h
  · rintro ⟨rn, hrn, hmatch⟩ h
    have hall := (from_string_loop_miss_iff e.rawNames name false).mp
      (by simpa using h)
    simp [hall rn hrn] at hmatch

theorem is_valid_nocase_eq_true_iff (e : EnumData) (name : List Char) :
    is_valid_nocase e name = true ↔
      ∃ rn ∈ e.rawNames, namesMatchNocase rn name = true := by
  unfold is_valid_nocase
  rw [bne_notFound_iff]
  constructor
  · intro h
    rcases from_string_nocase_loop_cases e.rawNames name false with
      ⟨i, hi⟩ | hmiss
    · obtain ⟨hlen, hmatch, -⟩ :=
        (from_string_nocase_loop_found_iff _ _ _ _).mp hi
      exact ⟨_, mem_of_getD hlen rfl, hmatch⟩
    · exact absurd (by simpa using hmiss) h
  · rintro ⟨rn, hrn, hmatch⟩ h
    have hall := (from_string_nocase_loop_miss_iff e.rawNames name false).mp
      (by simpa using h)
    simp [hall rn hrn] at hmatch

theorem from_string_ok_iff (e : EnumData) (name : List Char) :
    (∃ w, from_string e name = .ok w) ↔
      ∃ rn ∈ e.rawNames, namesMatch rn name = true := by
  constructor
  · rintro ⟨w, hw⟩
    rcases from_string_loop_cases e.rawNames name true with ⟨i, hi⟩ | hmiss
    · obtain ⟨hlen, hmatch, -⟩ := (from_string_loop_found_iff _ _ _ _).mp hi
      exact ⟨_, mem_of_getD hlen rfl, hmatch⟩
    · rw [from_string] at hw
      have hraised : from_string_loop e.rawNames name true = .raised := by
        simpa using hmiss
      rw [hraised] at hw
      cases hw
  · rintro ⟨rn, hrn, hmatch⟩
    rcases from_string_loop_cases e.rawNames name true with ⟨i, hi⟩ | hmiss
    · exact ⟨e.values.getD i 0, by simp only [from_string, hi]⟩
    · have hall := (from_string_loop_miss_iff e.rawNames name true).mp hmiss
      simp [hall rn hrn] at hmatch

theorem from_string_error_iff (e : EnumData) (name : List Char) :
    from_string e name = .error .invalidName ↔
      ∀ rn ∈ e.rawNames, namesMatch rn name = false := by
  constructor
  · intro h
    rcases from_string_loop_cases e.rawNames name true with ⟨i, hi⟩ | hmiss
    · simp [from_string, hi] at h
    · exact (from_string_loop_miss_iff _ _ _).mp hmiss
  · intro hall
    have hmiss : from_string_loop e.rawNames name true = .raised := by
      simpa using (from_string_loop_miss_iff e.rawNames name true).mpr hall
    simp [from_string, hmiss]

theorem from_string_nocase_ok_iff (e : EnumData) (name : List Char) :
    (∃ w, from_string_nocase e name = .ok w) ↔
      ∃ rn ∈ e.rawNames, namesMatchNocase rn name = true := by
  constructor
  · rintro ⟨w, hw⟩
    rcases from_string_nocase_loop_cases e.rawNames name true with
      ⟨i, hi⟩ | hmiss
    · obtain ⟨hlen, hmatch, -⟩ :=
        (from_string_nocase_loop_found_iff _ _ _ _).mp hi
      exact ⟨_, mem_of_getD hlen rfl, hmatch⟩
    · rw [from_string_nocase] at hw
      have hraised : from_string_nocase_loop e.rawNames name true = .raised := by
        simpa using hmiss
      rw [hraised] at hw
      cases hw
  · rintro ⟨rn, hrn, hmatch⟩
    rcases from_string_nocase_loop_cases e.rawNames name true with
      ⟨i, hi⟩ | hmiss
    · exact ⟨e.values.getD i 0, by simp only [from_string_nocase, hi]⟩
    · have hall := (from_string_nocase_loop_miss_iff e.rawNames name true).mp
        hmiss
      simp [hall rn hrn] at hmatch

theorem from_string_nocase_error_iff (e : EnumData) (name : List Char) :
    from_string_nocase e name = .error .invalidName ↔
      ∀ rn ∈ e.rawNames, namesMatchNocase rn name = false := by
  constructor
  · intro h
    rcases from_string_nocase_loop_cases e.rawNames name true with
      ⟨i, hi⟩ | hmiss
    · simp [from_string_nocase, hi] at h
    · exact (from_string_nocase_loop_miss_iff _ _ _).mp hmiss
  · intro hall
    have hmiss : from_string_nocase_loop e.rawNames name true = .raised := by
      simpa using (from_string_nocase_loop_miss_iff e.rawNames name true).mpr
        hall
    simp [from_string_nocase, hmiss]

theorem processNames_getD (rawNames : List (List Char)) (j : Nat)
    (hj : j < rawNames.length) :
    (processNames rawNames).getD j [] = trimName (rawNames.getD j []) := by
  have hj' : j < (processNames rawNames).length := by
    simpa [processNames] using hj
  rw [List.getD_eq_getElem _ _ hj', List.getD_eq_getElem _ _ hj]
  simp [processNames]

theorem to_string_loop_eq_from_int_loop (values : List Int)
    (names : List (List Char)) (v : Int)
    (hlen : values.length ≤ names.length) :
    to_string_loop values names v =
      match from_int_loop values v false with
      | .found i => some (names.getD i [])
      | _ => none := by
  induction values generalizing names with
  | nil => simp [to_string_loop, from_int_loop]
  | cons x vs ih =>
    cases names with
    | nil => simp at hlen
    | cons n ns =>
      by_cases h : x = v
      · simp [to_string_loop, from_int_loop, h]
      · simp only [to_string_loop, from_int_loop, h, if_false]
        rw [ih ns (by simpa using hlen)]
        cases hs : from_int_loop vs v false <;> simp [LookupResult.shift]

theorem exists_first_value_index (values : List Int) (v : Int)
    (hv : v ∈ values) :
    ∃ j, j < values.length ∧ values.getD j 0 = v ∧
      ∀ k < j, values.getD k 0 ≠ v := by
  rcases from_int_loop_cases values v false with ⟨i, hi⟩ | hmiss
  · exact ⟨i, (from_int_loop_found_iff _ _ _ _).mp hi⟩
  · rw [from_int_loop_miss_iff] at hmiss
    exact absurd hv hmiss

theorem to_string_first_match (e : EnumData) (v : Int) (j : Nat)
    (hj : j < e.values.length) (hval : e.values.getD j 0 = v)
    (hfirst : ∀ k < j, e.values.getD k 0 ≠ v) :
    to_string e v = .ok (trimName (e.rawNames.getD j [])) := by
  have hloop : from_int_loop e.values v false = .found j :=
    (from_int_loop_found_iff _ _ _ _).mpr ⟨hj, hval, hfirst⟩
  have hlen : e.values.length ≤ (processNames e.rawNames).length := by
    simp [processNames, e.len_eq]
  unfold to_string
  rw [to_string_loop_eq_from_int_loop _ _ _ hlen, hloop]
  show Except.ok ((processNames e.rawNames).getD j []) =
    Except.ok (trimName (e.rawNames.getD j []))
  rw [processNames_getD e.rawNames j (by rw [e.len_eq]; exact hj)]

theorem to_string_mem (e : EnumData) (v : Int) (hv : v ∈ e.values) :
    ∃ n, to_string e v = .ok n := by
  obtain ⟨j, hj, hval, hfirst⟩ := exists_first_value_index e.values v hv
  exact ⟨_, to_string_first_match e v j hj hval hfirst⟩

theorem to_string_not_mem (e : EnumData) (v : Int) (hv : v ∉ e.values) :
    to_string e v = .error .domainError := by
  have hmiss : from_int_loop e.values v false = .notFound := by
    simpa using (from_int_loop_miss_iff e.values v false).mpr hv
  have hlen : e.values.length ≤ (processNames e.rawNames).length := by
    simp [processNames, e.len_eq]
  unfold to_string
  rw [to_string_loop_eq_from_int_loop _ _ _ hlen, hmiss]

theorem findMinLoop_le_best (values : List Int) (best : Int) :
    findMinLoop values best ≤ best := by
  induction values generalizing best with
  | nil => simp [findMinLoop]
  | cons x rest ih =>
    by_cases h : x < best
    · simp only [findMinLoop, h, if_true]
      exact le_trans (ih x) (le_of_lt h)
    · simp only [findMinLoop, h, if_false]
      exact ih best

theorem findMinLoop_le_mem (values : List Int) :
    ∀ best x, x ∈ values → findMinLoop values best ≤ x := by
  induction values with
  | nil =>
    intro best x hx
    cases hx
  | cons y rest ih =>
    intro best x hx
    rcases List.mem_cons.mp hx with rfl | hmem
    · by_cases h : x < best
      · simp only [findMinLoop, h, if_true]
        exact findMinLoop_le_best rest x
      · simp only [findMinLoop, h, if_false]
        exact le_trans (findMinLoop_le_best rest best) (not_lt.mp h)
    · by_cases h : y < best
      · simp only [findMinLoop, h, if_true]
        exact ih y x hmem
      · simp only [findMinLoop, h, if_false]
        exact ih best x hmem

theorem findMin_le_mem (values : List Int) (x : Int) (hx : x ∈ values) :
    findMin values ≤ x := by
  cases values with
  | nil => cases hx
  | cons y rest =>
    show findMinLoop rest y ≤ x
    rcases List.mem_cons.mp hx with rfl | hmem
    · exact findMinLoop_le_best rest x
    · exact findMinLoop_le_mem rest y x hmem

theorem best_le_findMaxLoop (values : List Int) (best : Int) :
    best ≤ findMaxLoop values best := by
  induction values generalizing best with
  | nil => simp [findMaxLoop]
  | cons x rest ih =>
    by_cases h : x > best
    · simp only [findMaxLoop, h, if_true]
      exact le_trans (le_of_lt h) (ih x)
    · simp only [findMaxLoop, h, if_false]
      exact ih best

theorem mem_le_findMaxLoop (values : List Int) :
    ∀ best x, x ∈ values → x ≤ findMaxLoop values best := by
  induction values with
  | nil =>
    intro best x hx
    cases hx
  | cons y rest ih =>
    intro best x hx
    rcases List.mem_cons.mp hx with rfl | hmem
    · by_cases h : x > best
      · simp only [findMaxLoop, h, if_true]
        exact best_le_findMaxLoop rest x
      · simp only [findMaxLoop, h, if_false]
        exact le_trans (not_lt.mp h) (best_le_findMaxLoop rest best)
    · by_cases h : y > best
      · simp only [findMaxLoop, h, if_true]
        exact ih y x hmem
      · simp only [findMaxLoop, h, if_false]
        exact ih best x hmem

theorem mem_le_findMax (values : List Int) (x : Int) (hx : x ∈ values) :
    x ≤ findMax values := by
  cases values with
  | nil => cases hx
  | cons y rest =>
    show x ≤ findMaxLoop rest y
    rcases List.mem_cons.mp hx with rfl | hmem
    · exact best_le_findMaxLoop rest x
    · exact mem_le_findMaxLoop rest y x hmem

theorem findMin_le_findMax (values : List Int) (hne : values ≠ []) :
    findMin values ≤ findMax values := by
  cases values with
  | nil => exact absurd rfl hne
  | cons y rest =>
    exact le_trans
      (findMin_le_mem (y :: rest) y (List.mem_cons_self y rest))
      (mem_le_findMax (y :: rest) y (List.mem_cons_self y rest))

theorem length_le_range_of_nodup (values : List Int) (hne : values ≠ [])
    (hnd : values.Nodup) :
    (values.length : Int) ≤ findMax values - findMin values + 1 := by
  have hsub : values.toFinset ⊆
      Finset.Icc (findMin values) (findMax values) := by
    intro x hx
    rw [List.mem_toFinset] at hx
    rw [Finset.mem_Icc]
    exact ⟨findMin_le_mem values x hx, mem_le_findMax values x hx⟩
  have hcard := Finset.card_le_card hsub
  rw [List.toFinset_card_of_nodup hnd, Int.card_Icc] at hcard
  have hmm := findMin_le_findMax values hne
  omega

theorem findMinLoop_self_or_mem (values : List Int) :
    ∀ best, findMinLoop values best = best ∨ findMinLoop values best ∈ values := by
  induction values with
  | nil =>
    intro best
    left
    rfl
  | cons x rest ih =>
    intro best
    by_cases h : x < best
    · simp only [findMinLoop, h, if_true]
      rcases ih x with heq | hmem
      · right
        rw [heq]
        exact List.mem_cons_self x rest
      · right
        exact List.mem_cons_of_mem x hmem
    · simp only [findMinLoop, h, if_false]
      rcases ih best with heq | hmem
      · left
        exact heq
      · right
        exact List.mem_cons_of_mem x hmem

theorem findMin_mem (values : List Int) (hne : values ≠ []) :
    findMin values ∈ values := by
  cases values with
  | nil => exact absurd rfl hne
  | cons y rest =>
    show findMinLoop rest y ∈ y :: rest
    rcases findMinLoop_self_or_mem rest y with heq | hmem
    · rw [heq]
      exact List.mem_cons_self y rest
    · exact List.mem_cons_of_mem y hmem

theorem findMaxLoop_self_or_mem (values : List Int) :
    ∀ best, findMaxLoop values best = best ∨ findMaxLoop values best ∈ values := by
  induction values with
  | nil =>
    intro best
    left
    rfl
  | cons x rest ih =>
    intro best
    by_cases h : x > best
    · simp only [findMaxLoop, h, if_true]
      rcases ih x with heq | hmem
      · right
        rw [heq]
        exact List.mem_cons_self x rest
      · right
        exact List.mem_cons_of_mem x hmem
    · simp only [findMaxLoop, h, if_false]
      rcases ih best with heq | hmem
      · left
        exact heq
      · right
        exact List.mem_cons_of_mem x hmem

theorem findMax_mem (values : List Int) (hne : values ≠ []) :
    findMax values ∈ values := by
  cases values with
  | nil => exact absurd rfl hne
  | cons y rest =>
    show findMaxLoop rest y ∈ y :: rest
    rcases findMaxLoop_self_or_mem rest y with heq | hmem
    · rw [heq]
      exact List.mem_cons_self y rest
    · exact List.mem_cons_of_mem y hmem

theorem trimName_getD_inj (e : EnumData)
    (hnd : (processNames e.rawNames).Nodup) (i j : Nat)
    (hi : i < e.rawNames.length) (hj : j < e.rawNames.length)
    (heq : trimName (e.rawNames.getD i []) = trimName (e.rawNames.getD j [])) :
    i = j := by
  have hi' : i < (processNames e.rawNames).length := by
    simpa [processNames] using hi
  have hj' : j < (processNames e.rawNames).length := by
    simpa [processNames] using hj
  have h1 : (processNames e.rawNames).getD i [] =
      (processNames e.rawNames).getD j [] := by
    rw [processNames_getD _ _ hi, processNames_getD _ _ hj]
    exact heq
  rw [List.getD_eq_getElem _ [] hi', List.getD_eq_getElem _ [] hj'] at h1
  exact (List.Nodup.getElem_inj_iff hnd).mp h1

theorem from_string_trimmed_self (e : EnumData) (i : Nat)
    (hi : i < e.rawNames.length)
    (hnd : (processNames e.rawNames).Nodup) :
    from_string e (trimName (e.rawNames.getD i [])) =
      .ok (e.values.getD i 0) := by
  have hmatch : namesMatch (e.rawNames.getD i [])
      (trimName (e.rawNames.getD i [])) = true :=
    (namesMatch_eq_true_iff _ _).mpr rfl
  rcases from_string_loop_cases e.rawNames
      (trimName (e.rawNames.getD i [])) true with ⟨j, hj⟩ | hmiss
  · obtain ⟨hjlen, hjmatch, -⟩ := (from_string_loop_found_iff _ _ _ _).mp hj
    have htrim : trimName (e.rawNames.getD i []) =
        trimName (e.rawNames.getD j []) :=
      (namesMatch_eq_true_iff _ _).mp hjmatch
    obtain rfl : j = i := trimName_getD_inj e hnd j i hjlen hi htrim.symm
    simp only [from_string, hj]
  · have hall := (from_string_loop_miss_iff _ _ _).mp hmiss
    have hmem : e.rawNames.getD i [] ∈ e.rawNames := mem_of_getD hi rfl
    rw [hall _ hmem] at hmatch
    exact Bool.noConfusion hmatch

theorem trimName_length_le (s : List Char) :
    (trimName s).length ≤ s.length := by
  induction s with
  | nil => simp [trimName]
  | cons c s ih =>
    rw [trimName_cons]
    by_cases h : endsName c
    · simp [h]
    · simp only [h, Bool.false_eq_true, if_false, List.length_cons]
      exact Nat.succ_le_succ ih

theorem trimmed_sum_le (rawNames : List (List Char)) :
    (rawNames.map (fun s => (trimName s).length + 1)).sum ≤
      (rawNames.map (fun s => s.length + 1)).sum := by
  induction rawNames with
  | nil => simp
  | cons s rest ih =>
    simp only [List.map_cons, List.sum_cons]
    exact Nat.add_le_add (Nat.add_le_add_right (trimName_length_le s) 1) ih

theorem foldl_add_len (rawNames : List (List Char)) :
    ∀ acc : Nat, rawNames.foldl (fun a s => a + (s.length + 1)) acc =
      acc + (rawNames.map (fun s => s.length + 1)).sum := by
  induction rawNames with
  | nil =>
    intro acc
    simp
  | cons s rest ih =>
    intro acc
    simp only [List.foldl_cons, List.map_cons, List.sum_cons]
    rw [ih]
    omega

/-- C1: for every declared constant of a generated enum type whose trimmed
names are pairwise distinct (as C++ requires of identifiers), taking its
trimmed name back to an instance with from_string, to an integer with
to_int, and back with from_int yields an instance holding the constant's
own table value: the round-trip is the identity. -/
theorem C1_name_int_round_trip (e : EnumData) (i : Nat)
    (hi : i < e.rawNames.length)
    (hnd : (processNames e.rawNames).Nodup) :
    (from_string e (trimName (e.rawNames.getD i []))).bind
        (fun w => from_int e (to_int w)) =
      .ok (e.values.getD i 0) := by
  rw [from_string_trimmed_self e i hi hnd]
  show from_int e (to_int (e.values.getD i 0)) = .ok (e.values.getD i 0)
  exact from_int_mem e _ (mem_of_getD (e.len_eq ▸ hi) rfl)

/-- Witness for C1 on the RED, GREEN, BLUE scenario at index 1 (GREEN). -/
theorem C1_name_int_round_trip_witness :
    1 < sampleRGB.rawNames.length ∧
    (processNames sampleRGB.rawNames).Nodup ∧
    (from_string sampleRGB (trimName (sampleRGB.rawNames.getD 1 []))).bind
        (fun w => from_int sampleRGB (to_int w)) =
      .ok (sampleRGB.values.getD 1 0) :=
  ⟨by decide, by decide,
    C1_name_int_round_trip sampleRGB 1 (by decide) (by decide)⟩

/-- C2: a value in the table is is_valid and from_int returns it without
raising; a value outside the table is not is_valid and from_int raises
InvalidInteger; and all three query-mode lookup loops never reach their
raising branch on any input. -/
theorem C2_validity_contract (e : EnumData) (v : Int) (name : List Char) :
    (is_valid_int e v = true ↔ v ∈ e.values) ∧
    ((∃ w, from_int e v = .ok w) ↔ v ∈ e.values) ∧
    (from_int e v = .error .invalidInteger ↔ v ∉ e.values) ∧
    from_int_loop e.values v false ≠ .raised ∧
    from_string_loop e.rawNames name false ≠ .raised ∧
    from_string_nocase_loop e.rawNames name false ≠ .raised := by
  refine ⟨is_valid_int_eq_true_iff e v, ⟨?_, ?_⟩, ⟨?_, ?_⟩, ?_, ?_, ?_⟩
  · rintro ⟨w, hw⟩
    by_cases hv : v ∈ e.values
    · exact hv
    · rw [from_int_not_mem e v hv] at hw
      cases hw
  · intro hv
    exact ⟨v, from_int_mem e v hv⟩
  · intro h hv
    rw [from_int_mem e v hv] at h
    cases h
  · exact from_int_not_mem e v
  · rw [from_int_loop_eq_scanLoop]
    exact scanLoop_false_ne_raised _ _
  · rw [from_string_loop_eq_scanLoop]
    exact scanLoop_false_ne_raised _ _
  · rw [from_string_nocase_loop_eq_scanLoop]
    exact scanLoop_false_ne_raised _ _

/-- C3: to_string of any value present in the value table returns exactly
the trimmed declared identifier - the raw stringized declaration truncated
at its first ender character - of the first constant holding that value. -/
theorem C3_to_string_trimmed (e : EnumData) (v : Int) (hv : v ∈ e.values) :
    ∃ j, j < e.values.length ∧ e.values.getD j 0 = v ∧
      (∀ k < j, e.values.getD k 0 ≠ v) ∧
      to_string e v = .ok (trimName (e.rawNames.getD j [])) := by
  obtain ⟨j, hj, hval, hfirst⟩ := exists_first_value_index e.values v hv
  exact ⟨j, hj, hval, hfirst, to_string_first_match e v j hj hval hfirst⟩

/-- Witness for C3 on the RED, GREEN, BLUE scenario at value 1 (GREEN). -/
theorem C3_to_string_trimmed_witness :
    (1 : Int) ∈ sampleRGB.values ∧
    ∃ j, j < sampleRGB.values.length ∧ sampleRGB.values.getD j 0 = 1 ∧
      (∀ k < j, sampleRGB.values.getD k 0 ≠ 1) ∧
      to_string sampleRGB 1 = .ok (trimName (sampleRGB.rawNames.getD j [])) :=
  ⟨by decide, C3_to_string_trimmed sampleRGB 1 (by decide)⟩

/-- C4: each of the three lookup loops returns the smallest matching index
in declaration order when several table entries match; in particular for
declarations X, Y = X (both resolving to 0), looking up 0 yields index 0,
X's index, not Y's. -/
theorem C4_first_match_wins (values : List Int) (rawNames : List (List Char))
    (v : Int) (name : List Char) (te : Bool)
    (i : Nat) (hvi : i < values.length) (hvv : values.getD i 0 = v)
    (hvf : ∀ k < i, values.getD k 0 ≠ v)
    (j : Nat) (hsj : j < rawNames.length)
    (hsm : namesMatch (rawNames.getD j []) name = true)
    (hsf : ∀ k < j, namesMatch (rawNames.getD k []) name = false)
    (l : Nat) (hnl : l < rawNames.length)
    (hnm : namesMatchNocase (rawNames.getD l []) name = true)
    (hnf : ∀ k < l, namesMatchNocase (rawNames.getD k []) name = false) :
    from_int_loop values v te = .found i ∧
    from_string_loop rawNames name te = .found j ∧
    from_string_nocase_loop rawNames name te = .found l :=
  ⟨(from_int_loop_found_iff _ _ _ _).mpr ⟨hvi, hvv, hvf⟩,
    (from_string_loop_found_iff _ _ _ _).mpr ⟨hsj, hsm, hsf⟩,
    (from_string_nocase_loop_found_iff _ _ _ _).mpr ⟨hnl, hnm, hnf⟩⟩

/-- Witness for C4 on the X, Y = X aliasing scenario: value 0 and name X
both resolve to index 0, the first match in declaration order. -/
theorem C4_first_match_wins_witness :
    from_int_loop sampleAlias.values 0 true = .found 0 ∧
    from_string_loop sampleAlias.rawNames ['X'] true = .found 0 ∧
    from_string_nocase_loop sampleAlias.rawNames ['X'] true = .found 0 :=
  C4_first_match_wins sampleAlias.values sampleAlias.rawNames 0 ['X'] true
    0 (by decide) (by decide) (by decide)
    0 (by decide) (by decide) (by decide)
    0 (by decide) (by decide) (by decide)

/-- C5 as stated is false at a duplicate-value table: over an unsigned
32-bit underlying type, the declarations X, Y = X give values 0, 0, whose
span is 1 while the size is 2, so span is smaller than size. -/
theorem C5_counterexample :
    ¬ (span 32 [(0 : Int), 0] =
        findMax [(0 : Int), 0] - findMin [(0 : Int), 0] + 1 ∧
       (([(0 : Int), 0].length : Int) ≤ span 32 [(0 : Int), 0])) := by
  decide

/-- C5 amended: for every non-empty value table over an unsigned underlying
type of bit width w (with every value representable), every entry lies
between min and max and span equals max - min + 1 reduced in the type's
native modulo-2^w arithmetic; when the declared values are pairwise
distinct, either the exact max - min + 1 fits the type and span is at
least size, or the values cover the type's full range and span wraps to 0.
With duplicate values span can be smaller than size outright. -/
theorem C5_span_bounds (w : Nat) (values : List Int) (hne : values ≠ [])
    (hrange : ∀ v ∈ values, 0 ≤ v ∧ v < 2 ^ w) :
    (∀ v ∈ values, findMin values ≤ v ∧ v ≤ findMax values) ∧
    span w values = (findMax values - findMin values + 1) % (2 ^ w) ∧
    (values.Nodup →
      (findMax values - findMin values + 1 < 2 ^ w ∧
        (values.length : Int) ≤ span w values) ∨
      (findMax values - findMin values + 1 = 2 ^ w ∧
        span w values = 0)) := by
  refine ⟨fun v hv => ⟨findMin_le_mem values v hv, mem_le_findMax values v hv⟩,
    rfl, fun hnd => ?_⟩
  have hlen := length_le_range_of_nodup values hne hnd
  have hmin0 : 0 ≤ findMin values := (hrange _ (findMin_mem values hne)).1
  have hmaxlt : findMax values < 2 ^ w := (hrange _ (findMax_mem values hne)).2
  have hmm := findMin_le_findMax values hne
  by_cases hD : findMax values - findMin values + 1 < 2 ^ w
  · left
    refine ⟨hD, ?_⟩
    have hspan : span w values = findMax values - findMin values + 1 := by
      unfold span
      exact Int.emod_eq_of_lt (by omega) hD
    omega
  · right
    have hDeq : findMax values - findMin values + 1 = 2 ^ w := by omega
    refine ⟨hDeq, ?_⟩
    unfold span
    rw [hDeq]
    exact Int.emod_self

/-- Witness for C5 on the A = 10, B, C = 5 scenario over an unsigned
32-bit underlying type: min 5, max 11, span 7, size 3, no wrap. -/
theorem C5_span_bounds_witness :
    sampleABC.values ≠ [] ∧
    (∀ v ∈ sampleABC.values, 0 ≤ v ∧ v < 2 ^ 32) ∧
    ((∀ v ∈ sampleABC.values,
        findMin sampleABC.values ≤ v ∧ v ≤ findMax sampleABC.values) ∧
     span 32 sampleABC.values =
        (findMax sampleABC.values - findMin sampleABC.values + 1) % (2 ^ 32) ∧
     (sampleABC.values.Nodup →
        (findMax sampleABC.values - findMin sampleABC.values + 1 < 2 ^ 32 ∧
          (sampleABC.values.length : Int) ≤ span 32 sampleABC.values) ∨
        (findMax sampleABC.values - findMin sampleABC.values + 1 = 2 ^ 32 ∧
          span 32 sampleABC.values = 0))) :=
  ⟨by decide, by decide,
    C5_span_bounds 32 sampleABC.values (by decide) (by decide)⟩

/-- C6 as stated is false: the equals sign ends a name, yet the claim's
delimiter set of space, tab, newline and the null terminator excludes it. -/
theorem C6_counterexample :
    endsName '=' = true ∧
      ¬('=' = ' ' ∨ '=' = '\t' ∨ '=' = '\n' ∨ '=' = Char.ofNat 0) := by
  decide

/-- C6 amended: endsName holds exactly on the equals sign, space, tab,
newline and the null terminator. -/
theorem C6_endsName_characterization (c : Char) :
    endsName c = true ↔
      (c = '=' ∨ c = ' ' ∨ c = '\t' ∨ c = '\n' ∨ c = Char.ofNat 0) := by
  simp only [endsName, nameEnders, endsNameFrom, beq_iff_eq]
  by_cases h1 : c = '=' <;> by_cases h2 : c = ' ' <;>
    by_cases h3 : c = '\t' <;> by_cases h4 : c = '\n' <;>
    by_cases h5 : c = Char.ofNat 0 <;>
    simp [h1, h2, h3, h4, h5]

/-- C7 as stated is false: for the single raw name A = 42 the code sizes
the buffer from the untrimmed stringized length, 6 + 1 = 7 bytes, not the
trimmed 1 + 1 = 2 bytes. -/
theorem C7_counterexample :
    processNamesBytesNeeded [['A', ' ', '=', ' ', '4', '2']] = 7 ∧
    ([['A', ' ', '=', ' ', '4', '2']].map
        (fun s => (trimName s).length + 1)).sum = 2 ∧
    (7 : Nat) ≠ 2 := by
  decide

/-- C7 amended: the character buffer is sized to the sum over all raw names
of (full stringized length + 1), which is an upper bound on the sum of
(trimmed length + 1) that the trimmed copies actually occupy. -/
theorem C7_bytes_needed (rawNames : List (List Char)) :
    processNamesBytesNeeded rawNames =
      (rawNames.map (fun s => s.length + 1)).sum ∧
    (rawNames.map (fun s => (trimName s).length + 1)).sum ≤
      processNamesBytesNeeded rawNames := by
  have heq : processNamesBytesNeeded rawNames =
      (rawNames.map (fun s => s.length + 1)).sum := by
    rw [processNamesBytesNeeded, foldl_add_len rawNames 0]
    omega
  exact ⟨heq, heq ▸ trimmed_sum_le rawNames⟩

/-- C8: from_string_nocase succeeds exactly when some declared constant's
trimmed name equals the query under ASCII-only case folding, regardless of
the casing of either side. -/
theorem C8_nocase_lookup_iff (e : EnumData) (name : List Char) :
    (∃ w, from_string_nocase e name = .ok w) ↔
      ∃ rn ∈ e.rawNames,
        (trimName rn).map toLowercaseAscii = name.map toLowercaseAscii := by
  rw [from_string_nocase_ok_iff]
  constructor
  · rintro ⟨rn, hrn, hmatch⟩
    exact ⟨rn, hrn, ((namesMatchNocase_eq_true_iff _ _).mp hmatch).symm⟩
  · rintro ⟨rn, hrn, heq⟩
    exact ⟨rn, hrn, (namesMatchNocase_eq_true_iff _ _).mpr heq.symm⟩

/-- C9: to_string raises DomainError exactly on values outside the value
table - a state only reachable through from_int_unchecked, which wraps its
argument unvalidated - and every in-table value yields a name without
raising. -/
theorem C9_to_string_domain_error (e : EnumData) (v : Int) :
    (to_string e v = .error .domainError ↔ v ∉ e.values) ∧
    ((∃ n, to_string e v = .ok n) ↔ v ∈ e.values) ∧
    from_int_unchecked v = v := by
  refine ⟨⟨?_, to_string_not_mem e v⟩, ⟨?_, to_string_mem e v⟩, rfl⟩
  · intro h hv
    obtain ⟨n, hn⟩ := to_string_mem e v hv
    rw [hn] at h
    cases h
  · rintro ⟨n, hn⟩
    by_cases hv : v ∈ e.values
    · exact hv
    · rw [to_string_not_mem e v hv] at hn
      cases hn

/-- C10: when every raw name begins with a character that does not end a
name (true of every legal identifier), lookup of the empty string always
fails: both validity queries return false and both string conversions
raise InvalidName. -/
theorem C10_empty_string_fails (e : EnumData)
    (h : ∀ rn ∈ e.rawNames,
      rn ≠ [] ∧ endsName (rn.headD (Char.ofNat 0)) = false) :
    is_valid_string e [] = false ∧ is_valid_nocase e [] = false ∧
    from_string e [] = .error .invalidName ∧
    from_string_nocase e [] = .error .invalidName := by
  have hm : ∀ rn ∈ e.rawNames, namesMatch rn [] = false := by
    intro rn hrn
    obtain ⟨hne, hc⟩ := h rn hrn
    cases rn with
    | nil => exact absurd rfl hne
    | cons c rest =>
      simp only [List.headD_cons] at hc
      simp [namesMatch, hc]
  have hmn : ∀ rn ∈ e.rawNames, namesMatchNocase rn [] = false := by
    intro rn hrn
    obtain ⟨hne, hc⟩ := h rn hrn
    cases rn with
    | nil => exact absurd rfl hne
    | cons c rest =>
      simp only [List.headD_cons] at hc
      simp [namesMatchNocase, hc]
  refine ⟨?_, ?_, (from_string_error_iff e []).mpr hm,
    (from_string_nocase_error_iff e []).mpr hmn⟩
  · cases hb : is_valid_string e []
    · rfl
    · obtain ⟨rn, hrn, hmatch⟩ := (is_valid_string_eq_true_iff e []).mp hb
      rw [hm rn hrn] at hmatch
      exact Bool.noConfusion hmatch
  · cases hb : is_valid_nocase e []
    · rfl
    · obtain ⟨rn, hrn, hmatch⟩ := (is_valid_nocase_eq_true_iff e []).mp hb
      rw [hmn rn hrn] at hmatch
      exact Bool.noConfusion hmatch

/-- Witness for C10 on the RED, GREEN, BLUE scenario. -/
theorem C10_empty_string_fails_witness :
    (∀ rn ∈ sampleRGB.rawNames,
      rn ≠ [] ∧ endsName (rn.headD (Char.ofNat 0)) = false) ∧
    (is_valid_string sampleRGB [] = false ∧
     is_valid_nocase sampleRGB [] = false ∧
     from_string sampleRGB [] = .error .invalidName ∧
     from_string_nocase sampleRGB [] = .error .invalidName) :=
  ⟨by decide, C10_empty_string_fails sampleRGB (by decide)⟩
